import Mathlib

/-!
Verification development for the GakumasPreTranslation newline-reconciliation
scripts.  Text fields are modelled as `List Char`; the line-break marker is the
literal two-character sequence backslash + n, exactly as it appears inside the
CSV fields processed by the Python sources.
-/

namespace Gakumas

/-- The literal two-character line-break marker: a backslash followed by n. -/
def NL : List Char := ['\\', 'n']

/-- count_newlines: number of non-overlapping occurrences of the marker,
Python `text.count('\\n')` (left-to-right greedy scan; the two-character
pattern cannot self-overlap, so this counts every occurrence). -/
def countNL : List Char → Nat
  | [] => 0
  | [_] => 0
  | a :: b :: rest =>
    if a = '\\' ∧ b = 'n' then countNL rest + 1 else countNL (b :: rest)

/-- Python `text.split('\\n')`: greedy left-to-right split on the marker.
The result is always nonempty. -/
def splitNL : List Char → List (List Char)
  | '\\' :: 'n' :: rest => [] :: splitNL rest
  | c :: rest =>
    match splitNL rest with
    | p :: ps => (c :: p) :: ps
    | [] => [[c]]
  | [] => [[]]

/-- Python `text.startswith('\\n')`. -/
def startsNL (s : List Char) : Bool := NL.isPrefixOf s

/-- Python `text.endswith('\\n')`. -/
def endsNL (s : List Char) : Bool := NL.isSuffixOf s

/-- Python `c.isascii() and c.isalpha()`: an ASCII Latin letter. -/
def isAsciiAlpha (c : Char) : Bool :=
  ('a' ≤ c && c ≤ 'z') || ('A' ≤ c && c ≤ 'Z')

/-- Python slice `l[-10:]` generalised: the last `n` elements. -/
def lastN (n : Nat) (l : List Char) : List Char := l.drop (l.length - n)

/-- Reason string for rule 1 of validate_translation (the f-string begins with
a real newline in the source). -/
def countMismatchReason (target actual : Nat) : String :=
  "\n数量不匹配: 期望" ++ toString target ++ "个，实际" ++ toString actual ++ "个"

/-- Reason string for rule 2 of validate_translation. -/
def edgeReason : String := "\\n 不应出现在译文的头尾"

/-- Reason string for rule 3 of validate_translation, showing up to ten
characters on each side of the offending split point. -/
def cutReason (prev_part part : List Char) : String :=
  "\\n 切断了英文单词: ..." ++ String.mk (lastN 10 prev_part) ++ "\\n" ++
    String.mk (part.take 10) ++ "..."

/-- Reason string returned when all three checks pass. -/
def passReason : String := "验证通过"

/-- The per-boundary condition of rule 3 in validate_translation: the last
character of the part before a marker and the first character of the part
after it are both ASCII letters.  An empty part on either side yields false,
exactly as the Python loop skips when `part` or `prev_part` is falsy. -/
def cutPair (p q : List Char) : Bool :=
  (p.getLast?.elim false isAsciiAlpha) && (q.head?.elim false isAsciiAlpha)

/-- The scan of rule 3 in validate_translation: walk the split parts in order
and return the first consecutive pair whose boundary has an ASCII letter
immediately on both sides. -/
def findCut : List (List Char) → Option (List Char × List Char)
  | p :: q :: rest =>
    if cutPair p q then some (p, q) else findCut (q :: rest)
  | _ => none

/-- validate_translation from fix_newlines_with_api.py.  The first argument is
passed by every caller but never read inside the body, as in the source.
Returns pass/fail plus the reason of the first failing rule. -/
def validate_translation (original_text translated_text : List Char)
    (target_newline_count : Nat) : Bool × String :=
  let actual_count := countNL translated_text
  if actual_count ≠ target_newline_count then
    (false, countMismatchReason target_newline_count actual_count)
  else if startsNL translated_text || endsNL translated_text then
    (false, edgeReason)
  else
    match findCut (splitNL translated_text) with
    | some (p, q) => (false, cutReason p q)
    | none => (true, passReason)

/-- Rule 1 of validate_translation as a standalone check: exact marker count. -/
def rule1 (translated : List Char) (target : Nat) : Bool := countNL translated == target

/-- Rule 2 of validate_translation as a standalone check: no marker at the
start or end of the candidate. -/
def rule2 (translated : List Char) : Bool := !(startsNL translated || endsNL translated)

/-- Rule 3 of validate_translation as a standalone check: no split boundary
with an ASCII letter immediately on both sides. -/
def rule3 (translated : List Char) : Bool := (findCut (splitNL translated)).isNone

/-- Every consecutive pair of split parts that are both nonempty has a
letter-free boundary; boundaries touching an empty part are exempt.  This is
the amended reading of the letter-splitting rule for candidates with
adjacent markers. -/
def noCutAtNonempty : List (List Char) → Bool
  | p :: q :: rest => (p.isEmpty || q.isEmpty || !cutPair p q) && noCutAtNonempty (q :: rest)
  | _ => true

/-- A mismatch record emitted by check_csv_file in check_newlines.py,
carrying the 1-based row position (header = row 1), the four raw field
values, and both marker counts. -/
structure Mismatch where
  row : Nat
  id : List Char
  name : List Char
  text : List Char
  trans : List Char
  text_count : Nat
  trans_count : Nat
deriving DecidableEq

/-- The record check_csv_file builds for a data row: fields by fixed
position, counts computed by countNL. -/
def mkMismatch (row_num : Nat) (row : List (List Char)) : Mismatch :=
  { row := row_num
    id := row.getD 0 []
    name := row.getD 1 []
    text := row.getD 2 []
    trans := row.getD 3 []
    text_count := countNL (row.getD 2 [])
    trans_count := countNL (row.getD 3 []) }

/-- The scan loop of check_csv_file: data rows are numbered consecutively
starting at `row_num`; a row with fewer than 4 fields is skipped; otherwise
a record is emitted exactly when the marker counts of field 3 and field 4
differ. -/
def checkRows (row_num : Nat) : List (List (List Char)) → List Mismatch
  | [] => []
  | row :: rest =>
    if row.length < 4 then
      checkRows (row_num + 1) rest
    else if countNL (row.getD 2 []) ≠ countNL (row.getD 3 []) then
      mkMismatch row_num row :: checkRows (row_num + 1) rest
    else
      checkRows (row_num + 1) rest

/-- check_csv_file from check_newlines.py: the header is row 1 and data rows
are numbered from 2.  On an empty table the header read raises and the
exception handler returns None, modelled as `none`. -/
def check_csv_file (table : List (List (List Char))) : Option (List Mismatch) :=
  match table with
  | [] => none
  | _header :: dataRows => some (checkRows 2 dataRows)

/-- The fixed punctuation priority list of add_newline_after_punctuation. -/
def punctuation_priority : List Char := ['。', '！', '？', '，', '、', '；', '：']

/-- Python `text.find(c)` restricted to single characters: the index of the
first occurrence, or none when absent (the source's -1). -/
def firstIdx (c : Char) : List Char → Option Nat
  | [] => none
  | d :: rest => if d = c then some 0 else (firstIdx c rest).map (· + 1)

/-- One iteration of the loop in add_newline_after_punctuation: if `punct`
occurs in `text` and its first occurrence is not the final character, insert
the marker right after it; otherwise report no insertion so the loop moves
to the next priority character. -/
def tryInsert (text : List Char) (punct : Char) : Option (List Char) :=
  match firstIdx punct text with
  | some pos =>
    if pos < text.length - 1 then
      some (text.take (pos + 1) ++ NL ++ text.drop (pos + 1))
    else
      none
  | none => none

/-- The loop of add_newline_after_punctuation over the remaining priority
characters; falls through to the unchanged text. -/
def addNLGo (text : List Char) : List Char → List Char
  | [] => text
  | p :: ps =>
    match tryInsert text p with
    | some r => r
    | none => addNLGo text ps

/-- add_newline_after_punctuation from fix_newlines.py. -/
def add_newline_after_punctuation (text : List Char) : List Char :=
  addNLGo text punctuation_priority

/-- A character has a qualifying occurrence: it appears somewhere other than
the final position of the text. -/
def hasNonFinalOcc (c : Char) (t : List Char) : Prop :=
  ∃ i, t.get? i = some c ∧ i + 1 < t.length

/-- Python `str.strip()` on the responses: drop whitespace from both ends
(the model covers the ASCII whitespace the data can contain). -/
def pyStrip (s : List Char) : List Char :=
  ((s.dropWhile Char.isWhitespace).reverse.dropWhile Char.isWhitespace).reverse

/-- Python `text.replace(three backquotes, empty)`: delete every
non-overlapping occurrence of three U+0060 characters, left to right. -/
def stripTicks : List Char → List Char
  | c1 :: c2 :: c3 :: rest =>
    if c1 = Char.ofNat 96 ∧ c2 = Char.ofNat 96 ∧ c3 = Char.ofNat 96 then
      stripTicks rest
    else
      c1 :: stripTicks (c2 :: c3 :: rest)
  | s => s

/-- The response cleanup in translate_with_api: strip, remove the code-fence
characters, strip again. -/
def cleanResponse (raw : List Char) : List Char :=
  pyStrip (stripTicks (pyStrip raw))

/-- Outcome of one call to the remote text-generation collaborator: either a
raised exception or a returned completion text. -/
inductive AttemptOutcome
  | exception
  | response (text : List Char)

/-- An attempt fails when the service raised, or the cleaned candidate does
not validate against the original's marker count. -/
def attemptFails (original : List Char) : AttemptOutcome → Bool
  | .exception => true
  | .response raw =>
    !(validate_translation original (cleanResponse raw) (countNL original)).1

/-- The sleep length following a failed non-final attempt: 2 seconds after a
service exception, 1 second after a validation failure. -/
def delayOf : AttemptOutcome → Nat
  | .exception => 2
  | .response _ => 1

/-- The retry loop of translate_with_api: `attempt` is the 0-based index of
the current attempt, `remaining` the number of attempts still allowed, `o`
the collaborator's outcome for each attempt index.  Returns the accepted
translation (or none) together with the chronological list of sleep lengths;
a sleep happens only when another attempt follows. -/
def translateAttempts (original : List Char) (o : Nat → AttemptOutcome) :
    Nat → Nat → Option (List Char) × List Nat
  | _, 0 => (none, [])
  | attempt, remaining + 1 =>
    match o attempt with
    | .exception =>
      let tail := translateAttempts original o (attempt + 1) remaining
      if remaining > 0 then (tail.1, 2 :: tail.2) else tail
    | .response raw =>
      let cleaned := cleanResponse raw
      if (validate_translation original cleaned (countNL original)).1 then
        (some cleaned, [])
      else
        let tail := translateAttempts original o (attempt + 1) remaining
        if remaining > 0 then (tail.1, 1 :: tail.2) else tail

/-- translate_with_api from fix_newlines_with_api.py with max_retries = 3,
its default at every call site; the remote service is the collaborator `o`. -/
def translate_with_api (original : List Char) (o : Nat → AttemptOutcome) :
    Option (List Char) × List Nat :=
  translateAttempts original o 0 3

/-- update_csv_file from fix_newlines_with_api.py with the file I/O elided:
overwrite field 4 (index 3) of the 1-based row `row_number` (header = row 1)
and report whether the row number was in range.  The source assumes the
addressed row has at least 4 fields (it always comes from a mismatch
report). -/
def update_csv_rows (rows : List (List (List Char))) (row_number : Nat)
    (new_translation : List Char) : List (List (List Char)) × Bool :=
  if row_number ≤ rows.length then
    (rows.set (row_number - 1)
      ((rows.getD (row_number - 1) []).set 3 new_translation), true)
  else
    (rows, false)

/-- How main in fix_newlines_with_api.py books one processed record. -/
inductive RecordStep
  | updated
  | updateFailed
  | skipped
deriving DecidableEq

/-- The per-record step of main in fix_newlines_with_api.py after
translate_with_api returns: a successful translation is written into the row
set; a rejection (None) leaves the rows untouched and books the record as
skipped for manual review. -/
def main_handle_result (result : Option (List Char))
    (rows : List (List (List Char))) (row_number : Nat) :
    List (List (List Char)) × RecordStep :=
  match result with
  | some t =>
    match update_csv_rows rows row_number t with
    | (rows', true) => (rows', RecordStep.updated)
    | (rows', false) => (rows', RecordStep.updateFailed)
  | none => (rows, RecordStep.skipped)

/-- The per-row treatment inside fix_csv_file of fix_newlines.py: rows with
fewer than 4 fields pass through; a row whose source field has exactly one
marker and whose translation field has none, and whose translation contains
a priority punctuation character, gets add_newline_after_punctuation applied
to the translation (kept only when it changed the text). -/
def fix_row (row : List (List Char)) : List (List Char) :=
  if row.length < 4 then row
  else
    let text_col := row.getD 2 []
    let trans_col := row.getD 3 []
    if countNL text_col = 1 ∧ countNL trans_col = 0 then
      if punctuation_priority.any (fun p => trans_col.contains p) then
        let new_trans := add_newline_after_punctuation trans_col
        if new_trans ≠ trans_col then row.set 3 new_trans else row
      else row
    else row

/-- fix_translation_newlines from fix_newlines_with_ai.py: `response` is the
collaborator's reply (none = API exception).  The stripped reply is accepted
only when its marker count equals the target; otherwise the old translation
is returned with success = false. -/
def fix_translation_newlines (response : Option (List Char))
    (translated_text : List Char) (target_newline_count : Nat) :
    List Char × Bool :=
  match response with
  | none => (translated_text, false)
  | some r =>
    let fixed_text := pyStrip r
    if countNL fixed_text = target_newline_count then (fixed_text, true)
    else (translated_text, false)

/-- The per-row treatment of check_and_fix_csv_file in
fix_newlines_with_ai.py (production mode): rows with fewer than 4 fields are
never touched; a row with mismatched counts has its translation field
overwritten only when the AI fix succeeds. -/
def ai_fix_row (response : Option (List Char)) (row : List (List Char)) :
    List (List Char) :=
  if row.length < 4 then row
  else
    let text_col := row.getD 2 []
    let trans_col := row.getD 3 []
    if countNL text_col ≠ countNL trans_col then
      match fix_translation_newlines response trans_col (countNL text_col) with
      | (fixed_text, true) => row.set 3 fixed_text
      | (_, false) => row
    else row

/-- Observable effects of the two model-assisted mains, up to their first
file-system access. -/
inductive Ev
  | configFatal
  | reportMissing
  | fileRead (name : String)
  | fileWrite (name : String)
deriving DecidableEq

/-- Python truthiness of an optional environment value: absent (None) and
the empty string are falsy. -/
def truthy : Option String → Bool
  | none => false
  | some s => !(s == "")

/-- Event trace of main in fix_newlines_with_ai.py up to its first
file-system access: the environment check comes before any file is read or
written, and on a missing setting main reports the fatal configuration
error and returns.  The steps past the check (interactive prompt, data
directory scan) lie beyond the first file access and are not modelled. -/
def main_ai_trace (apiKey baseUrl : Option String) : List Ev :=
  if !(truthy apiKey) || !(truthy baseUrl) then [Ev.configFatal] else []

/-- The environment resolution of main in fix_newlines_with_api.py:
os.environ.get with hardcoded fallbacks, so resolution never fails and no
configuration error exists on this path. -/
def api_resolve_config (apiKey baseUrl : Option String) : String × String :=
  (apiKey.getD "sk-5c7503d7329d4b1081cc4bad40bb4d5e",
   baseUrl.getD "https://api.deepseek.com")

/-- Event trace of main in fix_newlines_with_api.py up to its first
file-system access: after config resolution (which cannot fail) main checks
for the mismatch report and, when present, reads it. -/
def main_api_trace (apiKey baseUrl : Option String) (reportExists : Bool) :
    List Ev :=
  let _resolved := api_resolve_config apiKey baseUrl
  if !reportExists then [Ev.reportMissing]
  else [Ev.fileRead "newline_mismatches.txt"]

/-- The regex \w for the tag name.  The model covers ASCII word characters
(letters, digits, underscore); Python's \w also admits further Unicode word
characters, which changes which names are recognised but not the stripping
structure the claims are about. -/
def isWordChar (c : Char) : Bool := c.isAlphanum || c = '_'

/-- The search of the non-greedy group (.*?) in the pattern of
remove_html_tags: scan forward for the literal close tag of `name`
(shortest inner span first), extending the span one character at a time;
the dot does not match a physical newline, so the scan aborts at one.
Returns the inner span and the text after the close tag. -/
def findClose (name : List Char) : List Char → Option (List Char × List Char)
  | [] => none
  | c :: rest =>
    if ('<' :: '/' :: (name ++ ['>'])).isPrefixOf (c :: rest) then
      some ([], (c :: rest).drop (name.length + 3))
    else if c = '\n' then
      none
    else
      match findClose name rest with
      | some (inner, after) => some (c :: inner, after)
      | none => none

/-- The backtracking over the greedy group (\w+): try the name of length
`k` first, then shorter names down to length 1.  `cs` is the text right
after the opening angle bracket; the greedy [^>]* then takes everything up
to the first close angle bracket (only that length can be followed by the
required literal), after which the close-tag search runs; on its failure
the name shrinks by one. -/
def tryName : Nat → List Char → Option (List Char × List Char)
  | 0, _ => none
  | k + 1, cs =>
    match (cs.drop (k + 1)).dropWhile (fun c => c ≠ '>') with
    | d :: rest2 =>
      if d = '>' then
        match findClose (cs.take (k + 1)) rest2 with
        | some (inner, after) => some (inner, after)
        | none => tryName k cs
      else tryName k cs
    | [] => tryName k cs

/-- Match of the stripping pattern anchored at the head of the text.
Returns the replacement (group 2, the inner span) and the text after the
whole match. -/
def matchTagAt : List Char → Option (List Char × List Char)
  | [] => none
  | c :: cs =>
    if c = '<' then tryName (cs.takeWhile isWordChar).length cs else none

/-- re.search over the whole text: some position matches the pattern. -/
def hasMatch : List Char → Bool
  | [] => false
  | c :: rest => (matchTagAt (c :: rest)).isSome || hasMatch rest

/-- One re.sub pass, fuelled to keep the recursion structural (a match
consumes at least one character, so `cs.length` fuel always suffices): scan
left to right, replace each non-overlapping match by its inner span, and
continue right after the match. -/
def subPassFuel : Nat → List Char → List Char
  | 0, cs => cs
  | fuel + 1, cs =>
    match cs with
    | [] => []
    | c :: rest =>
      match matchTagAt (c :: rest) with
      | some (inner, after) => inner ++ subPassFuel fuel after
      | none => c :: subPassFuel fuel rest

/-- One re.sub pass over the text. -/
def subPass (cs : List Char) : List Char := subPassFuel cs.length cs

/-- The while-loop of remove_html_tags, fuelled: run a substitution pass
while a match remains.  Each pass on a matching text is strictly shorter,
so `text.length` iterations always suffice. -/
def removeTagsFuel : Nat → List Char → List Char
  | 0, text => text
  | fuel + 1, text =>
    if hasMatch text then removeTagsFuel fuel (subPass text) else text

/-- remove_html_tags from remove_tags.py. -/
def remove_html_tags (text : List Char) : List Char :=
  removeTagsFuel text.length text

/-- If every nonempty-sided boundary is letter-free, the rule-3 scan finds no
violation: boundaries with an empty part on either side are skipped by the
scan itself. -/
theorem findCut_eq_none_of_noCut :
    ∀ parts, noCutAtNonempty parts = true → findCut parts = none
  | [], _ => rfl
  | [_], _ => rfl
  | p :: q :: rest, h => by
    have hun : noCutAtNonempty (p :: q :: rest)
        = ((p.isEmpty || q.isEmpty || !cutPair p q) && noCutAtNonempty (q :: rest)) := rfl
    rw [hun, Bool.and_eq_true] at h
    obtain ⟨h1, h2⟩ := h
    have hc : cutPair p q = false := by
      rcases Bool.or_eq_true_iff.mp h1 with h | h
      · rcases Bool.or_eq_true_iff.mp h with h | h
        · cases p with
          | nil => simp [cutPair]
          | cons a as => simp [List.isEmpty] at h
        · cases q with
          | nil => simp [cutPair]
          | cons a as => simp [List.isEmpty] at h
      · simpa using h
    have hfind : findCut (p :: q :: rest)
        = if cutPair p q then some (p, q) else findCut (q :: rest) := rfl
    rw [hfind, if_neg (by simp [hc])]
    exact findCut_eq_none_of_noCut (q :: rest) h2

/-- Membership in the detector's output characterises exactly the rows that
have at least 4 fields and differing marker counts, with the row numbered
`n + i` for the row at offset `i`. -/
theorem mem_checkRows (m : Mismatch) :
    ∀ (n : Nat) (rows : List (List (List Char))),
      (m ∈ checkRows n rows ↔
        ∃ i row, rows.get? i = some row ∧ 4 ≤ row.length ∧
          countNL (row.getD 2 []) ≠ countNL (row.getD 3 []) ∧
          m = mkMismatch (n + i) row)
  | n, [] => by simp [checkRows]
  | n, row :: rest => by
    have ih := mem_checkRows m (n + 1) rest
    by_cases h4 : row.length < 4
    · have hun : checkRows n (row :: rest) = checkRows (n + 1) rest := by
        simp only [checkRows, if_pos h4]
      rw [hun, ih]
      constructor
      · rintro ⟨i, r, hr, hlen, hne, hm⟩
        refine ⟨i + 1, r, by simpa using hr, hlen, hne, ?_⟩
        rw [hm]; congr 1; omega
      · rintro ⟨i, r, hr, hlen, hne, hm⟩
        cases i with
        | zero =>
          simp only [List.get?] at hr
          cases hr
          omega
        | succ j =>
          refine ⟨j, r, by simpa using hr, hlen, hne, ?_⟩
          rw [hm]; congr 1; omega
    · by_cases hne : countNL (row.getD 2 []) ≠ countNL (row.getD 3 [])
      · have hun : checkRows n (row :: rest)
            = mkMismatch n row :: checkRows (n + 1) rest := by
          simp only [checkRows, if_neg h4, if_pos hne]
        rw [hun]
        constructor
        · intro hmem
          rcases List.mem_cons.mp hmem with hm | hm
          · exact ⟨0, row, rfl, by omega, hne, by simpa using hm⟩
          · rcases ih.mp hm with ⟨i, r, hr, hlen, hn, heq⟩
            refine ⟨i + 1, r, by simpa using hr, hlen, hn, ?_⟩
            rw [heq]; congr 1; omega
        · rintro ⟨i, r, hr, hlen, hn, heq⟩
          cases i with
          | zero =>
            simp only [List.get?] at hr
            cases hr
            exact List.mem_cons.mpr (Or.inl (by simpa using heq))
          | succ j =>
            refine List.mem_cons.mpr (Or.inr (ih.mpr ⟨j, r, by simpa using hr, hlen, hn, ?_⟩))
            rw [heq]; congr 1; omega
      · have hun : checkRows n (row :: rest) = checkRows (n + 1) rest := by
          simp only [checkRows, if_neg h4, if_neg hne]
        rw [hun, ih]
        constructor
        · rintro ⟨i, r, hr, hlen, hn, hm⟩
          refine ⟨i + 1, r, by simpa using hr, hlen, hn, ?_⟩
          rw [hm]; congr 1; omega
        · rintro ⟨i, r, hr, hlen, hn, hm⟩
          cases i with
          | zero =>
            simp only [List.get?] at hr
            cases hr
            exact absurd hn hne
          | succ j =>
            refine ⟨j, r, by simpa using hr, hlen, hn, ?_⟩
            rw [hm]; congr 1; omega

/-- Every record the scan emits carries a row number at least the starting
number. -/
theorem checkRows_row_ge :
    ∀ (n : Nat) (rows : List (List (List Char))) (m : Mismatch),
      m ∈ checkRows n rows → n ≤ m.row
  | n, [], m => by simp [checkRows]
  | n, row :: rest, m => by
    intro hmem
    by_cases h4 : row.length < 4
    · have hun : checkRows n (row :: rest) = checkRows (n + 1) rest := by
        simp only [checkRows, if_pos h4]
      rw [hun] at hmem
      have := checkRows_row_ge (n + 1) rest m hmem
      omega
    · by_cases hne : countNL (row.getD 2 []) ≠ countNL (row.getD 3 [])
      · have hun : checkRows n (row :: rest)
            = mkMismatch n row :: checkRows (n + 1) rest := by
          simp only [checkRows, if_neg h4, if_pos hne]
        rw [hun] at hmem
        rcases List.mem_cons.mp hmem with hm | hm
        · rw [hm]; exact Nat.le_refl n
        · have := checkRows_row_ge (n + 1) rest m hm
          omega
      · have hun : checkRows n (row :: rest) = checkRows (n + 1) rest := by
          simp only [checkRows, if_neg h4, if_neg hne]
        rw [hun] at hmem
        have := checkRows_row_ge (n + 1) rest m hmem
        omega

/-- The emitted row numbers are strictly increasing in emission order. -/
theorem checkRows_pairwise :
    ∀ (n : Nat) (rows : List (List (List Char))),
      (checkRows n rows).Pairwise (fun a b => a.row < b.row)
  | _, [] => by simp [checkRows]
  | n, row :: rest => by
    by_cases h4 : row.length < 4
    · have hun : checkRows n (row :: rest) = checkRows (n + 1) rest := by
        simp only [checkRows, if_pos h4]
      rw [hun]
      exact checkRows_pairwise (n + 1) rest
    · by_cases hne : countNL (row.getD 2 []) ≠ countNL (row.getD 3 [])
      · have hun : checkRows n (row :: rest)
            = mkMismatch n row :: checkRows (n + 1) rest := by
          simp only [checkRows, if_neg h4, if_pos hne]
        rw [hun]
        refine List.Pairwise.cons ?_ (checkRows_pairwise (n + 1) rest)
        intro b hb
        have := checkRows_row_ge (n + 1) rest b hb
        simp only [mkMismatch]
        omega
      · have hun : checkRows n (row :: rest) = checkRows (n + 1) rest := by
          simp only [checkRows, if_neg h4, if_neg hne]
        rw [hun]
        exact checkRows_pairwise (n + 1) rest

/-- C5: check_csv_file emits a record exactly for each data row with at
least 4 fields whose two marker counts differ, carrying the raw field
values, both counts and the 1-based row position (header = row 1, first
data row = row 2), and the emitted row positions are strictly increasing in
table order. -/
theorem check_csv_file_spec (header : List (List Char))
    (dataRows : List (List (List Char))) :
    ∃ ms, check_csv_file (header :: dataRows) = some ms
      ∧ (∀ m, m ∈ ms ↔ ∃ i row, dataRows.get? i = some row ∧ 4 ≤ row.length ∧
            countNL (row.getD 2 []) ≠ countNL (row.getD 3 []) ∧
            m = mkMismatch (i + 2) row)
      ∧ ms.Pairwise (fun a b => a.row < b.row) := by
  refine ⟨checkRows 2 dataRows, rfl, ?_, checkRows_pairwise 2 dataRows⟩
  intro m
  rw [mem_checkRows]
  constructor <;> rintro ⟨i, row, h1, h2, h3, h4⟩
  · exact ⟨i, row, h1, h2, h3, by rw [h4]; congr 1; omega⟩
  · exact ⟨i, row, h1, h2, h3, by rw [h4]; congr 1; omega⟩

/-- C2: validate_translation checks its three rules in the fixed order
(count, edge, letter split) and returns fail with the reason of the first
failing rule; a count mismatch always yields the count-mismatch reason, and
the result is pass exactly when all three rules hold. -/
theorem validate_checks_in_order (orig cand : List Char) (target : Nat) :
    (countNL cand ≠ target →
      validate_translation orig cand target =
        (false, countMismatchReason target (countNL cand)))
  ∧ (countNL cand = target → rule2 cand = false →
      validate_translation orig cand target = (false, edgeReason))
  ∧ (countNL cand = target → rule2 cand = true →
      ∀ p q, findCut (splitNL cand) = some (p, q) →
        validate_translation orig cand target = (false, cutReason p q))
  ∧ ((validate_translation orig cand target).1 = true ↔
      (rule1 cand target = true ∧ rule2 cand = true ∧ rule3 cand = true)) := by
  refine ⟨?_, ?_, ?_, ?_⟩
  · intro h
    simp [validate_translation, h]
  · intro h1 h2
    have he : (startsNL cand || endsNL cand) = true := by
      simpa [rule2] using congrArg (fun b => !b) h2
    simp [validate_translation, h1, he]
  · intro h1 h2 p q hpq
    have he : (startsNL cand || endsNL cand) = false := by
      simpa [rule2] using congrArg (fun b => !b) h2
    simp [validate_translation, h1, he, hpq]
  · by_cases h1 : countNL cand = target
    · by_cases h2 : (startsNL cand || endsNL cand) = true
      · simp [validate_translation, h1, h2, rule1, rule2, rule3]
      · have he : (startsNL cand || endsNL cand) = false := Bool.eq_false_iff.mpr h2
        cases hfc : findCut (splitNL cand) with
        | none => simp [validate_translation, h1, he, hfc, rule1, rule2, rule3]
        | some pq => simp [validate_translation, h1, he, hfc, rule1, rule2, rule3]
    · simp [validate_translation, h1, rule1]

/-- C2 witness: at a concrete candidate with the wrong count the theorem
yields the count-mismatch reason, and at a fully valid candidate it yields
pass. -/
theorem validate_checks_in_order_witness :
    validate_translation [] ['a', '\\', 'n', 'b'] 2 =
      (false, countMismatchReason 2 1)
    ∧ (validate_translation [] ['你', '\\', 'n', '好'] 1).1 = true :=
  ⟨(validate_checks_in_order [] ['a', '\\', 'n', 'b'] 2).1 (by decide),
   ((validate_checks_in_order [] ['你', '\\', 'n', '好'] 1).2.2.2).mpr
     (by refine ⟨by decide, by decide, by decide⟩)⟩

/-- C3: a candidate whose marker count matches the target is still rejected,
with the start/end-marker reason, whenever it begins or ends with the
literal two-character marker. -/
theorem validate_rejects_edge_marker (orig cand : List Char) (target : Nat)
    (hcount : countNL cand = target)
    (hedge : startsNL cand = true ∨ endsNL cand = true) :
    validate_translation orig cand target = (false, edgeReason) := by
  have he : (startsNL cand || endsNL cand) = true := by
    rcases hedge with h | h <;> simp [h]
  simp [validate_translation, hcount, he]

/-- C3 witness: the candidate backslash-n-你好 against required count 1 is
rejected with the start/end-marker reason. -/
theorem validate_rejects_edge_marker_witness :
    countNL ['\\', 'n', '你', '好'] = 1
    ∧ validate_translation [] ['\\', 'n', '你', '好'] 1 = (false, edgeReason) :=
  ⟨by decide,
   validate_rejects_edge_marker [] ['\\', 'n', '你', '好'] 1 (by decide)
     (Or.inl (by decide))⟩

/-- C10 counterexample: the candidate a backslash-n b backslash-n
backslash-n c contains two adjacent markers, its marker count 3 equals the
required count, and it neither starts nor ends with the marker, yet
validate_translation rejects it (the boundary between a and b splits ASCII
letters), so the claim as stated is false. -/
theorem adjacent_markers_claim_counterexample :
    [] ∈ splitNL ['a', '\\', 'n', 'b', '\\', 'n', '\\', 'n', 'c']
    ∧ countNL ['a', '\\', 'n', 'b', '\\', 'n', '\\', 'n', 'c'] = 3
    ∧ startsNL ['a', '\\', 'n', 'b', '\\', 'n', '\\', 'n', 'c'] = false
    ∧ endsNL ['a', '\\', 'n', 'b', '\\', 'n', '\\', 'n', 'c'] = false
    ∧ (validate_translation [] ['a', '\\', 'n', 'b', '\\', 'n', '\\', 'n', 'c'] 3).1
        = false := by
  decide

/-- C10 amended: a boundary whose split part on either side is empty never
triggers the letter-splitting rule, so a candidate with adjacent markers
passes validation whenever its marker count equals the required count, it
does not start or end with the marker, and no boundary with nonempty parts
on both sides has ASCII letters on both sides. -/
theorem adjacent_markers_pass (orig cand : List Char) (target : Nat)
    (hadj : [] ∈ splitNL cand)
    (hcount : countNL cand = target)
    (hs : startsNL cand = false) (he : endsNL cand = false)
    (hnc : noCutAtNonempty (splitNL cand) = true) :
    validate_translation orig cand target = (true, passReason) := by
  have hfc := findCut_eq_none_of_noCut _ hnc
  simp [validate_translation, hcount, hs, he, hfc]

/-- C10 amended witness: the candidate 你 backslash-n backslash-n 好 with
required count 2 passes validation. -/
theorem adjacent_markers_pass_witness :
    validate_translation [] ['你', '\\', 'n', '\\', 'n', '好'] 2 =
      (true, passReason) :=
  adjacent_markers_pass [] ['你', '\\', 'n', '\\', 'n', '好'] 2
    (by decide) (by decide) (by decide) (by decide) (by decide)

/-- An index holding a value is within the list's length. -/
theorem lt_length_of_get?_eq_some {α : Type} {t : List α} {i : Nat} {c : α}
    (h : t.get? i = some c) : i < t.length := by
  by_contra hle
  rw [List.get?_eq_none.mpr (by omega)] at h
  cases h

/-- firstIdx finds an occurrence and nothing earlier is one. -/
theorem firstIdx_spec (c : Char) :
    ∀ (t : List Char) (pos : Nat), firstIdx c t = some pos →
      t.get? pos = some c ∧ ∀ j, j < pos → t.get? j ≠ some c
  | [], pos => by simp [firstIdx]
  | d :: rest, pos => by
    intro h
    by_cases hd : d = c
    · rw [firstIdx, if_pos hd] at h
      injection h with h'
      subst h'
      subst hd
      exact ⟨rfl, by intro j hj; omega⟩
    · rw [firstIdx, if_neg hd] at h
      rcases Option.map_eq_some'.mp h with ⟨p, hp, hpos⟩
      subst hpos
      have ih := firstIdx_spec c rest p hp
      refine ⟨by simpa using ih.1, ?_⟩
      intro j hj
      cases j with
      | zero =>
        intro hcon
        simp only [List.get?] at hcon
        injection hcon with h'
        exact hd h'
      | succ j' =>
        intro hcon
        exact ih.2 j' (by omega) (by simpa using hcon)

/-- When the character never occurs, firstIdx reports none. -/
theorem firstIdx_none (c : Char) :
    ∀ (t : List Char), firstIdx c t = none → ∀ i, t.get? i ≠ some c
  | [], _, i => by simp
  | d :: rest, h, i => by
    by_cases hd : d = c
    · rw [firstIdx, if_pos hd] at h
      cases h
    · rw [firstIdx, if_neg hd] at h
      have hrest : firstIdx c rest = none := by
        cases hr : firstIdx c rest with
        | none => rfl
        | some p => rw [hr] at h; cases h
      cases i with
      | zero =>
        intro hcon
        simp only [List.get?] at hcon
        injection hcon with h'
        exact hd h'
      | succ j =>
        intro hcon
        exact firstIdx_none c rest hrest j (by simpa using hcon)

/-- The first index is no larger than any index holding the character. -/
theorem firstIdx_le_of_get (c : Char) :
    ∀ (t : List Char) (i : Nat), t.get? i = some c →
      ∃ pos, firstIdx c t = some pos ∧ pos ≤ i
  | [], i => by simp
  | d :: rest, i => by
    intro h
    by_cases hd : d = c
    · exact ⟨0, by rw [firstIdx, if_pos hd], Nat.zero_le i⟩
    · cases i with
      | zero =>
        simp only [List.get?] at h
        injection h with h'
        exact absurd h' hd
      | succ j =>
        rcases firstIdx_le_of_get c rest j (by simpa using h) with ⟨p, hp, hpi⟩
        exact ⟨p + 1, by rw [firstIdx, if_neg hd, hp]; rfl, by omega⟩

/-- tryInsert declines exactly when the character has no occurrence before
the final position. -/
theorem tryInsert_eq_none_iff (t : List Char) (p : Char) :
    tryInsert t p = none ↔ ¬ hasNonFinalOcc p t := by
  cases h : firstIdx p t with
  | none =>
    have hnone : tryInsert t p = none := by rw [tryInsert, h]
    rw [hnone]
    constructor
    · rintro - ⟨i, hi, -⟩
      exact firstIdx_none p t h i hi
    · intro _; rfl
  | some pos =>
    by_cases hlt : pos < t.length - 1
    · have hsome : tryInsert t p
          = some (t.take (pos + 1) ++ NL ++ t.drop (pos + 1)) := by
        simp only [tryInsert, h]
        rw [if_pos hlt]
      rw [hsome]
      constructor
      · intro hcon; cases hcon
      · intro hno
        exfalso
        apply hno
        have hs := firstIdx_spec p t pos h
        exact ⟨pos, hs.1, by
          have := lt_length_of_get?_eq_some hs.1
          omega⟩
    · have hnone : tryInsert t p = none := by
        simp only [tryInsert, h]
        rw [if_neg hlt]
      rw [hnone]
      constructor
      · rintro - ⟨i, hi, hil⟩
        rcases firstIdx_le_of_get p t i hi with ⟨p', hp', hpi⟩
        rw [h] at hp'
        injection hp' with h'
        omega
      · intro _; rfl

/-- Appending after a list that does not end in a backslash splits the
marker count: no marker occurrence can straddle the boundary. -/
theorem countNL_append :
    ∀ (A B : List Char), A.getLast? ≠ some '\\' →
      countNL (A ++ B) = countNL A + countNL B
  | [], B, _ => by simp [countNL]
  | [c], B, h => by
    have hc : c ≠ '\\' := by simpa using h
    cases B with
    | nil => simp [countNL]
    | cons b B' =>
      show countNL (c :: b :: B') = countNL [c] + countNL (b :: B')
      rw [show countNL (c :: b :: B')
          = if c = '\\' ∧ b = 'n' then countNL B' + 1 else countNL (b :: B') from rfl]
      rw [if_neg (by rintro ⟨h1, -⟩; exact hc h1)]
      simp [countNL]
  | a :: b :: A', B, h => by
    show countNL (a :: b :: (A' ++ B)) = countNL (a :: b :: A') + countNL B
    rw [show countNL (a :: b :: (A' ++ B))
        = if a = '\\' ∧ b = 'n' then countNL (A' ++ B) + 1
          else countNL (b :: (A' ++ B)) from rfl]
    rw [show countNL (a :: b :: A')
        = if a = '\\' ∧ b = 'n' then countNL A' + 1 else countNL (b :: A') from rfl]
    by_cases hab : a = '\\' ∧ b = 'n'
    · rw [if_pos hab, if_pos hab]
      cases A' with
      | nil =>
        simp only [List.nil_append, countNL]
        omega
      | cons x A'' =>
        have h' : (x :: A'').getLast? ≠ some '\\' := by
          simpa [List.getLast?_cons_cons] using h
        rw [countNL_append (x :: A'') B h']
        omega
    · rw [if_neg hab, if_neg hab]
      have h' : (b :: A').getLast? ≠ some '\\' := by
        simpa [List.getLast?_cons_cons] using h
      exact countNL_append (b :: A') B h'

/-- The last element of a take of length pos+1 is the element at index pos. -/
theorem getLast?_take_succ :
    ∀ (t : List Char) (pos : Nat), pos < t.length →
      (t.take (pos + 1)).getLast? = t.get? pos
  | [], pos, h => by simp at h
  | c :: rest, 0, _ => by simp
  | c :: rest, pos + 1, h => by
    cases rest with
    | nil => simp at h
    | cons y rest' =>
      have h' : pos < (y :: rest').length := by
        simpa using Nat.lt_of_succ_lt_succ h
      calc ((c :: y :: rest').take (pos + 2)).getLast?
          = (c :: (y :: rest').take (pos + 1)).getLast? := by
            rw [List.take_succ_cons]
        _ = ((y :: rest').take (pos + 1)).getLast? := by
            rw [List.take_succ_cons, List.getLast?_cons_cons]
        _ = (y :: rest').get? pos := getLast?_take_succ (y :: rest') pos h'
        _ = (c :: y :: rest').get? (pos + 1) := rfl

/-- Behaviour of the priority loop of add_newline_after_punctuation: it
returns the text unchanged when no priority character qualifies, and
otherwise inserts the marker after the first occurrence of the
priority-first qualifying character. -/
theorem addNLGo_spec (t : List Char) :
    ∀ ps : List Char,
      ((∀ p ∈ ps, ¬ hasNonFinalOcc p t) → addNLGo t ps = t)
    ∧ (∀ p ∈ ps, hasNonFinalOcc p t →
        ∃ k q pos, ps.get? k = some q
          ∧ (∀ k' q', k' < k → ps.get? k' = some q' → ¬ hasNonFinalOcc q' t)
          ∧ t.get? pos = some q ∧ (∀ j, j < pos → t.get? j ≠ some q)
          ∧ pos + 1 < t.length
          ∧ addNLGo t ps = t.take (pos + 1) ++ NL ++ t.drop (pos + 1))
  | [] => by
    constructor
    · intro _; rfl
    · intro p hp; simp at hp
  | p0 :: ps' => by
    have ih := addNLGo_spec t ps'
    cases htry : tryInsert t p0 with
    | some r =>
      have hgo : addNLGo t (p0 :: ps') = r := by
        rw [show addNLGo t (p0 :: ps')
            = (match tryInsert t p0 with
               | some r => r
               | none => addNLGo t ps') from rfl, htry]
      have hocc : hasNonFinalOcc p0 t := by
        by_contra hno
        rw [(tryInsert_eq_none_iff t p0).mpr hno] at htry
        cases htry
      cases hpos : firstIdx p0 t with
      | none => rw [tryInsert, hpos] at htry; cases htry
      | some pos =>
        by_cases hlt : pos < t.length - 1
        · have hr : r = t.take (pos + 1) ++ NL ++ t.drop (pos + 1) := by
            simp only [tryInsert, hpos] at htry
            rw [if_pos hlt] at htry
            injection htry with h'
            exact h'.symm
          constructor
          · intro hall
            exact absurd hocc (hall p0 (List.mem_cons_self p0 ps'))
          · intro p hp hpocc
            have hs := firstIdx_spec p0 t pos hpos
            refine ⟨0, p0, pos, rfl, ?_, hs.1, hs.2, ?_, ?_⟩
            · intro k' q' hk' _; omega
            · have := lt_length_of_get?_eq_some hs.1
              omega
            · rw [hgo, hr]
        · simp only [tryInsert, hpos] at htry
          rw [if_neg hlt] at htry
          cases htry
    | none =>
      have hno : ¬ hasNonFinalOcc p0 t := (tryInsert_eq_none_iff t p0).mp htry
      have hgo : addNLGo t (p0 :: ps') = addNLGo t ps' := by
        rw [show addNLGo t (p0 :: ps')
            = (match tryInsert t p0 with
               | some r => r
               | none => addNLGo t ps') from rfl, htry]
      constructor
      · intro hall
        rw [hgo]
        exact ih.1 (fun p hp => hall p (List.mem_cons_of_mem p0 hp))
      · intro p hp hpocc
        have hp' : p ∈ ps' := by
          rcases List.mem_cons.mp hp with h | h
          · subst h; exact absurd hpocc hno
          · exact h
        rcases ih.2 p hp' hpocc with ⟨k, q, pos, hk, hmin, hq, hqmin, hplen, hres⟩
        refine ⟨k + 1, q, pos, by simpa using hk, ?_, hq, hqmin, hplen,
          by rw [hgo]; exact hres⟩
        intro k' q' hk' hk'get
        cases k' with
        | zero =>
          simp only [List.get?] at hk'get
          injection hk'get with h'
          subst h'
          exact hno
        | succ j =>
          exact hmin j q' (by omega) (by simpa using hk'get)

/-- C4: add_newline_after_punctuation returns the input unchanged exactly
when no listed punctuation character occurs at a non-final position;
otherwise it inserts the marker immediately after the first occurrence of
the priority-first qualifying punctuation character, the result has exactly
one more marker than the input, and the inserted marker is neither at the
start nor at the very end of the result. -/
theorem add_newline_spec (t : List Char) :
    ((∀ p ∈ punctuation_priority, ¬ hasNonFinalOcc p t) →
      add_newline_after_punctuation t = t)
  ∧ (∀ p ∈ punctuation_priority, hasNonFinalOcc p t →
      ∃ k q pos, punctuation_priority.get? k = some q
        ∧ (∀ k' q', k' < k → punctuation_priority.get? k' = some q' →
            ¬ hasNonFinalOcc q' t)
        ∧ t.get? pos = some q ∧ (∀ j, j < pos → t.get? j ≠ some q)
        ∧ pos + 1 < t.length
        ∧ add_newline_after_punctuation t
            = t.take (pos + 1) ++ NL ++ t.drop (pos + 1)
        ∧ t.take (pos + 1) ≠ [] ∧ t.drop (pos + 1) ≠ []
        ∧ add_newline_after_punctuation t ≠ t
        ∧ countNL (add_newline_after_punctuation t) = countNL t + 1) := by
  obtain ⟨h1, h2⟩ := addNLGo_spec t punctuation_priority
  refine ⟨h1, ?_⟩
  intro p hp hocc
  rcases h2 p hp hocc with ⟨k, q, pos, hk, hmin, hq, hqmin, hplen, hres⟩
  have hqpr : q ∈ punctuation_priority := List.get?_mem hk
  have hqns : q ≠ '\\' :=
    (by decide : ∀ c ∈ punctuation_priority, c ≠ '\\') q hqpr
  have hlen : pos < t.length := lt_length_of_get?_eq_some hq
  have htake : (t.take (pos + 1)).getLast? = some q := by
    rw [getLast?_take_succ t pos hlen]; exact hq
  have hA : (t.take (pos + 1)).getLast? ≠ some '\\' := by
    rw [htake]
    intro hcon
    injection hcon with h'
    exact hqns h'
  have htakene : t.take (pos + 1) ≠ [] := by
    intro hnil
    rw [hnil] at htake
    cases htake
  have hdropne : t.drop (pos + 1) ≠ [] := by
    intro hnil
    have := congrArg List.length hnil
    simp only [List.length_drop, List.length_nil] at this
    omega
  have hNL : countNL (NL ++ t.drop (pos + 1)) = countNL (t.drop (pos + 1)) + 1 := by
    cases hd : t.drop (pos + 1) with
    | nil => exact absurd hd hdropne
    | cons x xs => simp [NL, countNL]
  have hcount : countNL (t.take (pos + 1) ++ NL ++ t.drop (pos + 1))
      = countNL t + 1 := by
    rw [List.append_assoc,
      countNL_append (t.take (pos + 1)) (NL ++ t.drop (pos + 1)) hA, hNL]
    have hsplit : countNL t
        = countNL (t.take (pos + 1)) + countNL (t.drop (pos + 1)) := by
      conv_lhs => rw [← List.take_append_drop (pos + 1) t]
      exact countNL_append _ _ hA
    omega
  have hneq : add_newline_after_punctuation t ≠ t := by
    show addNLGo t punctuation_priority ≠ t
    rw [hres]
    intro hcon
    have := congrArg List.length hcon
    simp only [List.length_append, List.length_take, List.length_drop, NL,
      List.length_cons, List.length_nil] at this
    omega
  exact ⟨k, q, pos, hk, hmin, hq, hqmin, hplen, hres, htakene, hdropne, hneq, by
    show countNL (addNLGo t punctuation_priority) = countNL t + 1
    rw [hres]
    exact hcount⟩

/-- C4 witness: on 外，冷 the inserter places the marker right after the
comma, the priority-first qualifying punctuation character. -/
theorem add_newline_spec_witness :
    ∃ k q pos, punctuation_priority.get? k = some q
      ∧ (∀ k' q', k' < k → punctuation_priority.get? k' = some q' →
          ¬ hasNonFinalOcc q' ['外', '，', '冷'])
      ∧ ['外', '，', '冷'].get? pos = some q
      ∧ (∀ j, j < pos → ['外', '，', '冷'].get? j ≠ some q)
      ∧ pos + 1 < ['外', '，', '冷'].length
      ∧ add_newline_after_punctuation ['外', '，', '冷']
          = ['外', '，', '冷'].take (pos + 1) ++ NL ++ ['外', '，', '冷'].drop (pos + 1)
      ∧ ['外', '，', '冷'].take (pos + 1) ≠ [] ∧ ['外', '，', '冷'].drop (pos + 1) ≠ []
      ∧ add_newline_after_punctuation ['外', '，', '冷'] ≠ ['外', '，', '冷']
      ∧ countNL (add_newline_after_punctuation ['外', '，', '冷'])
          = countNL ['外', '，', '冷'] + 1 :=
  (add_newline_spec ['外', '，', '冷']).2 '，' (by decide) ⟨1, by decide, by decide⟩

/-- A failing attempt that is the last allowed one produces the rejection
with no further sleep. -/
theorem translateAttempts_fail_last (original : List Char)
    (o : Nat → AttemptOutcome) (attempt : Nat)
    (hfail : attemptFails original (o attempt) = true) :
    translateAttempts original o attempt 1 = (none, []) := by
  cases ho : o attempt with
  | exception => simp [translateAttempts, ho]
  | response raw =>
    have hv : (validate_translation original (cleanResponse raw)
        (countNL original)).1 = false := by
      have hcopy := hfail
      rw [ho] at hcopy
      simpa [attemptFails] using hcopy
    simp [translateAttempts, ho, hv]

/-- A failing attempt with at least one retry left consumes one slot and is
followed by the outcome-specific sleep. -/
theorem translateAttempts_fail_mid (original : List Char)
    (o : Nat → AttemptOutcome) (attempt r : Nat)
    (hfail : attemptFails original (o attempt) = true) :
    translateAttempts original o attempt (r + 2)
      = ((translateAttempts original o (attempt + 1) (r + 1)).1,
         delayOf (o attempt) :: (translateAttempts original o (attempt + 1) (r + 1)).2) := by
  cases ho : o attempt with
  | exception => simp [translateAttempts, ho, delayOf]
  | response raw =>
    have hv : (validate_translation original (cleanResponse raw)
        (countNL original)).1 = false := by
      have hcopy := hfail
      rw [ho] at hcopy
      simpa [attemptFails] using hcopy
    simp [translateAttempts, ho, hv, delayOf]

/-- The loop only consults the outcomes of the attempts it may make. -/
theorem translateAttempts_congr (original : List Char)
    (o o' : Nat → AttemptOutcome) :
    ∀ (remaining attempt : Nat),
      (∀ i, attempt ≤ i → i < attempt + remaining → o' i = o i) →
      translateAttempts original o' attempt remaining
        = translateAttempts original o attempt remaining
  | 0, _, _ => rfl
  | remaining + 1, attempt, h => by
    have h0 : o' attempt = o attempt := h attempt (Nat.le_refl _) (by omega)
    have ih := translateAttempts_congr original o o' remaining (attempt + 1)
      (fun i h1 h2 => h i (by omega) (by omega))
    cases ho : o attempt with
    | exception => simp only [translateAttempts, h0, ho, ih]
    | response raw => simp only [translateAttempts, h0, ho, ih]

/-- C1: when the collaborator's first three outcomes all fail (validation
failure or exception), translate_with_api makes exactly those 3 attempts
(its result is insensitive to later outcomes), sleeps between attempts for
1 second after a validation failure and 2 seconds after an exception, and
returns the rejection None, on which main leaves the row set unchanged and
books the record as skipped for manual review. -/
theorem translate_retry_spec (original : List Char)
    (o : Nat → AttemptOutcome)
    (hf : ∀ i, i < 3 → attemptFails original (o i) = true) :
    translate_with_api original o = (none, [delayOf (o 0), delayOf (o 1)])
  ∧ (∀ o' : Nat → AttemptOutcome, (∀ i, i < 3 → o' i = o i) →
      translate_with_api original o' = translate_with_api original o)
  ∧ (∀ rows row_number,
      main_handle_result (translate_with_api original o).1 rows row_number
        = (rows, RecordStep.skipped)) := by
  have e2 := translateAttempts_fail_last original o 2 (hf 2 (by omega))
  have e1 := translateAttempts_fail_mid original o 1 0 (hf 1 (by omega))
  have e0 := translateAttempts_fail_mid original o 0 1 (hf 0 (by omega))
  have hres : translate_with_api original o
      = (none, [delayOf (o 0), delayOf (o 1)]) := by
    show translateAttempts original o 0 3 = _
    rw [e0, e1, e2]
  refine ⟨hres, ?_, ?_⟩
  · intro o' ho'
    show translateAttempts original o' 0 3 = translateAttempts original o 0 3
    exact translateAttempts_congr original o o' 3 0
      (fun i h1 h2 => ho' i (by omega))
  · intro rows row_number
    rw [hres]
    rfl

/-- C1 witness: a collaborator that always raises exhausts the 3 attempts
with two 2-second sleeps, and main then skips the record. -/
theorem translate_retry_spec_witness :
    translate_with_api ['あ'] (fun _ => AttemptOutcome.exception) = (none, [2, 2])
    ∧ main_handle_result
        (translate_with_api ['あ'] (fun _ => AttemptOutcome.exception)).1
        [[['x'], ['y'], ['z'], ['w']]] 2
      = ([[['x'], ['y'], ['z'], ['w']]], RecordStep.skipped) :=
  ⟨(translate_retry_spec ['あ'] (fun _ => AttemptOutcome.exception)
      (fun _ _ => rfl)).1,
   (translate_retry_spec ['あ'] (fun _ => AttemptOutcome.exception)
      (fun _ _ => rfl)).2.2 [[['x'], ['y'], ['z'], ['w']]] 2⟩

/-- C8: a row with fewer than 4 fields is passed through byte-for-byte
unchanged by both repair operations (the rule-based one of fix_newlines.py
and the model-assisted one of fix_newlines_with_ai.py), whatever the
collaborator replies. -/
theorem short_row_unchanged (row : List (List Char)) (h : row.length < 4) :
    fix_row row = row ∧ ∀ response, ai_fix_row response row = row := by
  constructor
  · rw [fix_row, if_pos h]
  · intro response
    rw [ai_fix_row, if_pos h]

/-- C8 witness: a one-field row is untouched by both repair operations. -/
theorem short_row_unchanged_witness :
    fix_row [['a']] = [['a']]
    ∧ ai_fix_row (some ['x']) [['a']] = [['a']] :=
  ⟨(short_row_unchanged [['a']] (by decide)).1,
   (short_row_unchanged [['a']] (by decide)).2 (some ['x'])⟩

/-- C6 counterexample: with both settings absent from the environment, the
report-driven repair program (fix_newlines_with_api.py) resolves hardcoded
defaults instead of failing, reports no configuration error, and proceeds
to read the mismatch report — so the claim is false for that program. -/
theorem config_absent_claim_counterexample :
    main_api_trace none none true = [Ev.fileRead "newline_mismatches.txt"]
    ∧ Ev.configFatal ∉ main_api_trace none none true
    ∧ api_resolve_config none none
        = ("sk-5c7503d7329d4b1081cc4bad40bb4d5e", "https://api.deepseek.com") := by
  refine ⟨rfl, ?_, rfl⟩
  intro hmem
  simp [main_api_trace] at hmem

/-- C6 amended: when either setting is absent, the dotenv-driven repair
program (fix_newlines_with_ai.py) reports a fatal configuration error and
touches no file, while the report-driven program (fix_newlines_with_api.py)
substitutes hardcoded defaults, never reports a configuration error, and
proceeds to read the mismatch report. -/
theorem config_absent_spec (apiKey baseUrl : Option String)
    (h : apiKey = none ∨ baseUrl = none) :
    main_ai_trace apiKey baseUrl = [Ev.configFatal]
    ∧ (∀ n, Ev.fileRead n ∉ main_ai_trace apiKey baseUrl
        ∧ Ev.fileWrite n ∉ main_ai_trace apiKey baseUrl)
    ∧ (∀ reportExists, Ev.configFatal ∉ main_api_trace apiKey baseUrl reportExists)
    ∧ main_api_trace apiKey baseUrl true
        = [Ev.fileRead "newline_mismatches.txt"] := by
  have hma : main_ai_trace apiKey baseUrl = [Ev.configFatal] := by
    rcases h with h | h
    · subst h; simp [main_ai_trace, truthy]
    · subst h; simp [main_ai_trace, truthy]
  refine ⟨hma, ?_, ?_, rfl⟩
  · intro n
    rw [hma]
    exact ⟨by simp, by simp⟩
  · intro reportExists
    cases reportExists <;> simp [main_api_trace]

/-- C6 amended witness: with the API key absent, the dotenv-driven program
halts with the configuration error while the report-driven program reads
the report. -/
theorem config_absent_spec_witness :
    main_ai_trace none (some "https://api.deepseek.com") = [Ev.configFatal]
    ∧ main_api_trace none (some "https://api.deepseek.com") true
        = [Ev.fileRead "newline_mismatches.txt"] :=
  ⟨(config_absent_spec none (some "https://api.deepseek.com") (Or.inl rfl)).1,
   (config_absent_spec none (some "https://api.deepseek.com") (Or.inl rfl)).2.2.2⟩

/-- A successful close-tag search decomposes the text as inner span, close
tag, and remainder. -/
theorem findClose_spec (name : List Char) :
    ∀ (cs inner after : List Char),
      findClose name cs = some (inner, after) →
      cs = inner ++ ('<' :: '/' :: (name ++ ['>'])) ++ after
  | [], inner, after => by simp [findClose]
  | c :: rest, inner, after => by
    intro h
    by_cases hp : ('<' :: '/' :: (name ++ ['>'])).isPrefixOf (c :: rest)
    · rw [findClose, if_pos hp] at h
      injection h with h'
      injection h' with hi ha
      subst hi
      subst ha
      obtain ⟨t, ht⟩ := List.isPrefixOf_iff_prefix.mp hp
      have hlen : ('<' :: '/' :: (name ++ ['>'])).length = name.length + 3 := by
        simp
      rw [← ht, List.nil_append, ← hlen, List.drop_left]
    · rw [findClose, if_neg hp] at h
      by_cases hc : c = '\n'
      · rw [if_pos hc] at h
        cases h
      · rw [if_neg hc] at h
        cases hrec : findClose name rest with
        | none => rw [hrec] at h; cases h
        | some pr =>
          obtain ⟨inner', after'⟩ := pr
          rw [hrec] at h
          injection h with h'
          injection h' with hi ha
          subst hi
          subst ha
          have ih := findClose_spec name rest inner' after' hrec
          rw [List.cons_append, List.cons_append, ← ih]

/-- A successful anchored name search consumes strictly more than the inner
span and the remainder together. -/
theorem tryName_shrink :
    ∀ (k : Nat) (cs inner after : List Char),
      tryName k cs = some (inner, after) →
      inner.length + after.length + 4 ≤ cs.length
  | 0, cs, inner, after => by simp [tryName]
  | k + 1, cs, inner, after => by
    intro h
    rw [tryName] at h
    cases hdw : (cs.drop (k + 1)).dropWhile (fun c => c ≠ '>') with
    | nil =>
      simp only [hdw] at h
      exact tryName_shrink k cs inner after h
    | cons d rest2 =>
      simp only [hdw] at h
      by_cases hd : d = '>'
      · rw [if_pos hd] at h
        cases hfc : findClose (cs.take (k + 1)) rest2 with
        | none =>
          rw [hfc] at h
          exact tryName_shrink k cs inner after h
        | some pr =>
          obtain ⟨inner', after'⟩ := pr
          rw [hfc] at h
          injection h with h'
          injection h' with hi ha
          rw [← hi, ← ha]
          have hspec := findClose_spec (cs.take (k + 1)) rest2 inner' after' hfc
          have hlen2 : rest2.length
              = inner'.length + ((cs.take (k + 1)).length + 3) + after'.length := by
            rw [hspec]
            simp only [List.length_append, List.length_cons, List.length_nil]
          have hsplit : (cs.drop (k + 1)).length
              = ((cs.drop (k + 1)).takeWhile (fun c => c ≠ '>')).length
                + rest2.length + 1 := by
            conv_lhs =>
              rw [← List.takeWhile_append_dropWhile
                (p := fun c => c ≠ '>') (l := cs.drop (k + 1))]
            rw [hdw]
            simp only [List.length_append, List.length_cons]
            omega
          have hdl : (cs.drop (k + 1)).length = cs.length - (k + 1) :=
            List.length_drop _ _
          have htk : (cs.take (k + 1)).length = min (k + 1) cs.length :=
            List.length_take _ _
          omega
      · rw [if_neg hd] at h
        exact tryName_shrink k cs inner after h

/-- A match at the head of the text consumes strictly more than the inner
replacement and the remainder together. -/
theorem matchTagAt_shrink (cs inner after : List Char)
    (h : matchTagAt cs = some (inner, after)) :
    inner.length + after.length + 4 ≤ cs.length := by
  cases cs with
  | nil => simp [matchTagAt] at h
  | cons c cs' =>
    by_cases hc : c = '<'
    · rw [matchTagAt, if_pos hc] at h
      have := tryName_shrink (cs'.takeWhile isWordChar).length cs' inner after h
      simp only [List.length_cons]
      omega
    · rw [matchTagAt, if_neg hc] at h
      cases h

/-- The fuelled substitution pass does not depend on the fuel once the fuel
covers the text length. -/
theorem subPassFuel_congr :
    ∀ (f1 f2 : Nat) (cs : List Char), cs.length ≤ f1 → cs.length ≤ f2 →
      subPassFuel f1 cs = subPassFuel f2 cs
  | 0, 0, _, _, _ => rfl
  | 0, _ + 1, cs, h1, _ => by
    have hnil : cs = [] := List.length_eq_zero.mp (by omega)
    subst hnil
    rfl
  | _ + 1, 0, cs, _, h2 => by
    have hnil : cs = [] := List.length_eq_zero.mp (by omega)
    subst hnil
    rfl
  | f1 + 1, f2 + 1, cs, h1, h2 => by
    cases cs with
    | nil => rfl
    | cons c rest =>
      cases hm : matchTagAt (c :: rest) with
      | some pr =>
        obtain ⟨inner, after⟩ := pr
        have hlt := matchTagAt_shrink (c :: rest) inner after hm
        have he1 : subPassFuel (f1 + 1) (c :: rest)
            = inner ++ subPassFuel f1 after := by
          simp only [subPassFuel, hm]
        have he2 : subPassFuel (f2 + 1) (c :: rest)
            = inner ++ subPassFuel f2 after := by
          simp only [subPassFuel, hm]
        rw [he1, he2, subPassFuel_congr f1 f2 after
          (by simp only [List.length_cons] at hlt h1; omega)
          (by simp only [List.length_cons] at hlt h2; omega)]
      | none =>
        have he1 : subPassFuel (f1 + 1) (c :: rest)
            = c :: subPassFuel f1 rest := by
          simp only [subPassFuel, hm]
        have he2 : subPassFuel (f2 + 1) (c :: rest)
            = c :: subPassFuel f2 rest := by
          simp only [subPassFuel, hm]
        rw [he1, he2, subPassFuel_congr f1 f2 rest
          (by simp only [List.length_cons] at h1; omega)
          (by simp only [List.length_cons] at h2; omega)]

/-- A substitution pass never lengthens the text. -/
theorem subPassFuel_length_le :
    ∀ (fuel : Nat) (cs : List Char), cs.length ≤ fuel →
      (subPassFuel fuel cs).length ≤ cs.length
  | 0, _, _ => Nat.le_refl _
  | fuel + 1, cs, h => by
    cases cs with
    | nil => simp [subPassFuel]
    | cons c rest =>
      cases hm : matchTagAt (c :: rest) with
      | some pr =>
        obtain ⟨inner, after⟩ := pr
        have hlt := matchTagAt_shrink (c :: rest) inner after hm
        have he : subPassFuel (fuel + 1) (c :: rest)
            = inner ++ subPassFuel fuel after := by
          simp only [subPassFuel, hm]
        have ih := subPassFuel_length_le fuel after
          (by simp only [List.length_cons] at hlt h; omega)
        rw [he]
        simp only [List.length_append, List.length_cons] at *
        omega
      | none =>
        have he : subPassFuel (fuel + 1) (c :: rest)
            = c :: subPassFuel fuel rest := by
          simp only [subPassFuel, hm]
        have ih := subPassFuel_length_le fuel rest
          (by simp only [List.length_cons] at h; omega)
        rw [he]
        simp only [List.length_cons] at *
        omega

/-- A substitution pass on a text with a match strictly shortens it. -/
theorem subPassFuel_length_lt :
    ∀ (fuel : Nat) (cs : List Char), cs.length ≤ fuel → hasMatch cs = true →
      (subPassFuel fuel cs).length < cs.length
  | 0, cs, h, hm => by
    have hnil : cs = [] := List.length_eq_zero.mp (by omega)
    subst hnil
    cases hm
  | fuel + 1, cs, h, hmm => by
    cases cs with
    | nil => cases hmm
    | cons c rest =>
      cases hm : matchTagAt (c :: rest) with
      | some pr =>
        obtain ⟨inner, after⟩ := pr
        have hlt := matchTagAt_shrink (c :: rest) inner after hm
        have he : subPassFuel (fuel + 1) (c :: rest)
            = inner ++ subPassFuel fuel after := by
          simp only [subPassFuel, hm]
        have ih := subPassFuel_length_le fuel after
          (by simp only [List.length_cons] at hlt h; omega)
        rw [he]
        simp only [List.length_append, List.length_cons] at *
        omega
      | none =>
        have hrest : hasMatch rest = true := by
          have := hmm
          rw [hasMatch, hm] at this
          simpa using this
        have he : subPassFuel (fuel + 1) (c :: rest)
            = c :: subPassFuel fuel rest := by
          simp only [subPassFuel, hm]
        have ih := subPassFuel_length_lt fuel rest
          (by simp only [List.length_cons] at h; omega) hrest
        rw [he]
        simp only [List.length_cons] at *
        omega

/-- The loop variant of remove_html_tags: a pass on a matching text is
strictly shorter. -/
theorem subPass_length_lt (cs : List Char) (h : hasMatch cs = true) :
    (subPass cs).length < cs.length :=
  subPassFuel_length_lt cs.length cs (Nat.le_refl _) h

/-- Without a match the fuelled loop returns its input at any fuel. -/
theorem removeTagsFuel_no_match (fuel : Nat) (text : List Char)
    (h : hasMatch text = false) : removeTagsFuel fuel text = text := by
  cases fuel with
  | zero => rfl
  | succ f =>
    rw [removeTagsFuel, if_neg (by rw [h]; exact Bool.false_ne_true)]

/-- With fuel covering the text length the fuelled loop reaches a text with
no remaining match. -/
theorem removeTagsFuel_fix :
    ∀ (fuel : Nat) (text : List Char), text.length ≤ fuel →
      hasMatch (removeTagsFuel fuel text) = false
  | 0, text, h => by
    have hnil : text = [] := List.length_eq_zero.mp (by omega)
    subst hnil
    rfl
  | fuel + 1, text, h => by
    by_cases hm : hasMatch text = true
    · rw [removeTagsFuel, if_pos hm]
      exact removeTagsFuel_fix fuel (subPass text)
        (by have := subPass_length_lt text hm; omega)
    · rw [removeTagsFuel, if_neg hm]
      exact Bool.eq_false_iff.mpr hm

/-- The fuelled loop does not depend on the fuel once it covers the text
length. -/
theorem removeTagsFuel_congr :
    ∀ (f1 f2 : Nat) (text : List Char), text.length ≤ f1 → text.length ≤ f2 →
      removeTagsFuel f1 text = removeTagsFuel f2 text
  | 0, f2, text, h1, _ => by
    have hnil : text = [] := List.length_eq_zero.mp (by omega)
    subst hnil
    rw [removeTagsFuel_no_match f2 [] rfl]
    rfl
  | f1 + 1, 0, text, _, h2 => by
    have hnil : text = [] := List.length_eq_zero.mp (by omega)
    subst hnil
    rw [removeTagsFuel_no_match (f1 + 1) [] rfl]
    rfl
  | f1 + 1, f2 + 1, text, h1, h2 => by
    by_cases hm : hasMatch text = true
    · rw [removeTagsFuel, if_pos hm, removeTagsFuel, if_pos hm]
      have hlt := subPass_length_lt text hm
      exact removeTagsFuel_congr f1 f2 (subPass text) (by omega) (by omega)
    · rw [removeTagsFuel, if_neg hm, removeTagsFuel, if_neg hm]

/-- C7: remove_html_tags is a fixed point on its own output — re-running it
on its output returns the output unchanged, because the output contains no
remaining match of the stripping pattern. -/
theorem remove_html_tags_fixpoint (text : List Char) :
    remove_html_tags (remove_html_tags text) = remove_html_tags text
    ∧ hasMatch (remove_html_tags text) = false := by
  have hfix : hasMatch (remove_html_tags text) = false :=
    removeTagsFuel_fix text.length text (Nat.le_refl _)
  exact ⟨removeTagsFuel_no_match _ _ hfix, hfix⟩

/-- C9: the stripping loop of remove_html_tags terminates on every input:
a substitution pass runs only on a text with a match and then strictly
decreases the text length, so the loop reaches its result within
text.length iterations — any fuel covering the text length yields
remove_html_tags' result. -/
theorem remove_tags_terminates (text : List Char) :
    (hasMatch text = true → (subPass text).length < text.length)
    ∧ (∀ fuel, text.length ≤ fuel →
        removeTagsFuel fuel text = remove_html_tags text) := by
  refine ⟨subPass_length_lt text, ?_⟩
  intro fuel hf
  exact removeTagsFuel_congr fuel text.length text hf (Nat.le_refl _)

/-- C9 witness: on a concrete tagged text the pass strictly shortens it and
20 units of fuel already compute remove_html_tags' result. -/
theorem remove_tags_terminates_witness :
    (subPass ['<', 'e', 'm', '>', 'x', '<', '/', 'e', 'm', '>']).length
      < (['<', 'e', 'm', '>', 'x', '<', '/', 'e', 'm', '>'] : List Char).length
    ∧ removeTagsFuel 20 ['<', 'e', 'm', '>', 'x', '<', '/', 'e', 'm', '>']
        = remove_html_tags ['<', 'e', 'm', '>', 'x', '<', '/', 'e', 'm', '>'] :=
  ⟨(remove_tags_terminates ['<', 'e', 'm', '>', 'x', '<', '/', 'e', 'm', '>']).1
      (by decide),
   (remove_tags_terminates ['<', 'e', 'm', '>', 'x', '<', '/', 'e', 'm', '>']).2
      20 (by decide)⟩

end Gakumas
